import Mathlib

/-!
Shallow embedding of `viewstate/parse.py`: a marker-dispatch decoder for the
ASP.NET ViewState binary serialization format.  Byte strings are modelled as
`List Nat` (Python `bytes` yields ints 0-255; the embedding is total on `Nat`
and never needs the upper bound).  Python exceptions become the `PError` sum:
an out-of-range `b[i]` read or list assignment raises `IndexError`, an
unhashable dict key raises `TypeError`, reading a never-assigned local raises
`UnboundLocalError`, `bytes.decode()` raises `UnicodeDecodeError`, and the
repository's own `ViewStateException` carries its message.  Python slices
(`b[i:]`, `b[:n]`) clamp silently and are modelled with `List.drop` /
`List.take`.  The mutual recursion between the dispatch core `Parser.parse`
and the composite decoders is broken with a fuel parameter: `Parser.parse`
consumes one unit of fuel per dispatch and hands the decremented fuel (as the
partially applied dispatch function `p`) to the composite decoders, exactly
where the Python source calls `Parser.parse` recursively.
-/

/-- Errors a decode can raise.  `viewState` is the repository's
`ViewStateException` with its message; `indexError`, `typeError`,
`unboundLocalError` and `unicodeDecodeError` are the Python built-in
exceptions the source can leak; `outOfFuel` is the embedding's artifact for
exhausted dispatch fuel (no Python counterpart).  `unsupportedKeyType` and
`truncatedInput` are names from the specification's error taxonomy only: the
source never raises them; they are present so statements about them can be
written. -/
inductive PError where
  | indexError : PError
  | typeError : PError
  | unboundLocalError : PError
  | unicodeDecodeError : PError
  | viewState : String → PError
  | outOfFuel : PError
  | unsupportedKeyType : PError
  | truncatedInput : PError
deriving DecidableEq

/-- Decoded Python values: `None`, bool, unsigned int, str, tuple of 2 or 3,
list (arrays, string arrays and sparse arrays all return Python lists), dict
(modelled as an insertion-ordered association list), and the stub
`datetime(2000, 1, 1)` sentinel. -/
inductive Value where
  | none : Value
  | bool : Bool → Value
  | int : Nat → Value
  | str : String → Value
  | pair : Value → Value → Value
  | triplet : Value → Value → Value → Value
  | list : List Value → Value
  | dict : List (Value × Value) → Value
  | datetime : Nat → Nat → Nat → Value

mutual

/-- Structural equality on decoded values, playing the role of Python's
`==` in `d[k] = v` key lookup.  (No claim exercises Python's cross-type
numeric equalities such as `True == 1`, so structural equality is enough.) -/
def Value.beq : Value → Value → Bool
  | .none, .none => true
  | .bool a, .bool b => a == b
  | .int a, .int b => a == b
  | .str a, .str b => a == b
  | .pair a b, .pair a' b' => Value.beq a a' && Value.beq b b'
  | .triplet a b c, .triplet a' b' c' =>
      Value.beq a a' && Value.beq b b' && Value.beq c c'
  | .list l, .list l' => Value.listBeq l l'
  | .dict d, .dict d' => Value.pairListBeq d d'
  | .datetime y m d, .datetime y' m' d' => y == y' && m == m' && d == d'
  | _, _ => false

/-- Elementwise `Value.beq` on lists. -/
def Value.listBeq : List Value → List Value → Bool
  | [], [] => true
  | a :: as, b :: bs => Value.beq a b && Value.listBeq as bs
  | _, _ => false

/-- Elementwise `Value.beq` on association lists. -/
def Value.pairListBeq : List (Value × Value) → List (Value × Value) → Bool
  | [], [] => true
  | (k, v) :: as, (k', v') :: bs =>
      Value.beq k k' && Value.beq v v' && Value.pairListBeq as bs
  | _, _ => false

end

instance : BEq Value := ⟨Value.beq⟩

/-- Python hashability of a decoded value: lists and dicts are unhashable,
tuples are hashable iff their components are, scalars and strings are
hashable.  `d[k] = v` raises `TypeError` on an unhashable `k`. -/
def Value.hashable : Value → Bool
  | .list _ => false
  | .dict _ => false
  | .pair a b => a.hashable && b.hashable
  | .triplet a b c => a.hashable && b.hashable && c.hashable
  | _ => true

/-- Strict UTF-8 decoding, modelling Python's `bytes.decode()` (default
`utf-8` codec, strict errors): 1-4 byte sequences with the standard
continuation ranges, rejecting overlong forms, surrogates and code points
above `0x10FFFF`.  Returns the decoded code points, `none` on invalid
input. -/
def utf8Decode : List Nat → Option (List Char)
  | [] => some []
  | b :: rest =>
    if b < 0x80 then
      (utf8Decode rest).map (Char.ofNat b :: ·)
    else if 0xc2 ≤ b ∧ b ≤ 0xdf then
      match rest with
      | c1 :: rest' =>
        if 0x80 ≤ c1 ∧ c1 ≤ 0xbf then
          (utf8Decode rest').map (Char.ofNat ((b - 0xc0) * 64 + (c1 - 0x80)) :: ·)
        else none
      | [] => none
    else if 0xe0 ≤ b ∧ b ≤ 0xef then
      match rest with
      | c1 :: c2 :: rest' =>
        let lo1 := if b = 0xe0 then 0xa0 else 0x80
        let hi1 := if b = 0xed then 0x9f else 0xbf
        if (lo1 ≤ c1 ∧ c1 ≤ hi1) ∧ (0x80 ≤ c2 ∧ c2 ≤ 0xbf) then
          (utf8Decode rest').map
            (Char.ofNat ((b - 0xe0) * 4096 + (c1 - 0x80) * 64 + (c2 - 0x80)) :: ·)
        else none
      | _ => none
    else if 0xf0 ≤ b ∧ b ≤ 0xf4 then
      match rest with
      | c1 :: c2 :: c3 :: rest' =>
        let lo1 := if b = 0xf0 then 0x90 else 0x80
        let hi1 := if b = 0xf4 then 0x8f else 0xbf
        if (lo1 ≤ c1 ∧ c1 ≤ hi1) ∧ (0x80 ≤ c2 ∧ c2 ≤ 0xbf) ∧ (0x80 ≤ c3 ∧ c3 ≤ 0xbf) then
          (utf8Decode rest').map
            (Char.ofNat ((b - 0xf0) * 262144 + (c1 - 0x80) * 4096 +
              (c2 - 0x80) * 64 + (c3 - 0x80)) :: ·)
        else none
      | _ => none
    else none

/-- The `while (bits < 32)` loop of `Integer.parse`.  The Python loop keeps
the whole buffer plus an index `i` and returns `b[i:]`; here the unread
suffix is passed directly (reading `b[i]` becomes heading the suffix), which
makes the recursion structural.  State: `bits` is the current shift offset,
`n` the accumulator.  `tmp & 0x7f` is accumulated at offset `bits`; a clear
high bit (`tmp & 0x80 == 0`) returns immediately; otherwise `bits` grows by 7
and once `bits < 32` fails the loop exits returning the accumulator (the
source's `# overflow` line). -/
def Integer.parseAux (bits n : Nat) : List Nat → Except PError (Nat × List Nat)
  | [] => if bits < 32 then .error .indexError else .ok (n, [])
  | tmp :: rest =>
    if bits < 32 then
      let m := n ||| ((tmp &&& 0x7f) <<< bits)
      if tmp &&& 0x80 = 0 then .ok (m, rest)
      else Integer.parseAux (bits + 7) m rest
    else .ok (n, tmp :: rest)

/-- `Integer.parse` (marker 0x02): variable-length integer, low 7 bits per
byte at increasing offsets, high bit as continuation flag. -/
def Integer.parse (b : List Nat) : Except PError (Nat × List Nat) :=
  Integer.parseAux 0 0 b

/-- `String.parse` (markers 0x05, 0x1e): varint length `n`, then
`remain[:n].decode()`.  The source's dead first line `n = b[0]` only re-reads
the byte `Integer.parse` reads anyway (both raise `IndexError` on an empty
buffer), so it adds no observable behavior.  The slice `remain[:n]` clamps:
fewer than `n` bytes silently yield a shorter string. -/
def String.parse (b : List Nat) : Except PError (String × List Nat) := do
  let (n, remain) ← Integer.parse b
  match utf8Decode (remain.take n) with
  | .none => .error .unicodeDecodeError
  | .some cs => .ok (String.mk cs, remain.drop n)

/-- The source's `Type` class (a Lean keyword, hence `VType`): type
descriptor sub-grammar used by sparse and typed arrays.  Flag 0x29/0x2a →
string, 0x2b → integer, anything else raises `ViewStateException` (the
source formats the buffer into the message; the embedding keeps a fixed
message text since no claim depends on it). -/
def VType.parse (b : List Nat) : Except PError (Value × List Nat) :=
  match b with
  | [] => .error .indexError
  | flag :: rest =>
    if flag = 0x29 ∨ flag = 0x2a then
      (String.parse rest).map (fun r => (.str r.1, r.2))
    else if flag = 0x2b then
      (Integer.parse rest).map (fun r => (.int r.1, r.2))
    else .error (.viewState "Unknown type flag")

/-- `Enum.parse` (marker 0x0b): sub-marker 0x29/0x2a → string name,
0x2b → integer reference; any other sub-marker falls through both branches
and the subsequent `Integer.parse(remain)` reads the never-assigned local
`remain`, raising `UnboundLocalError`.  On the defined branches one more
varint is read and the result is the formatted display string. -/
def Enum.parse (b : List Nat) : Except PError (Value × List Nat) :=
  match b with
  | [] => .error .indexError
  | flag :: rest =>
    if flag = 0x29 ∨ flag = 0x2a then do
      let (enum, remain) ← String.parse rest
      let (val, remain') ← Integer.parse remain
      .ok (.str ("Enum: " ++ enum ++ ", val: " ++ toString val), remain')
    else if flag = 0x2b then do
      let (enum, remain) ← Integer.parse rest
      let (val, remain') ← Integer.parse remain
      .ok (.str ("Enum: " ++ toString enum ++ ", val: " ++ toString val), remain')
    else .error .unboundLocalError

/-- `Color.parse` (marker 0x0a): returns the fixed placeholder and `b[2:]`.
No byte is ever read, so this never fails, even on an empty buffer (the
slice clamps). -/
def Color.parse (b : List Nat) : Except PError (Value × List Nat) :=
  .ok (.str "Color: unknown", b.drop 2)

/-- `Datetime.parse` (marker 0x06): skips 8 bytes, returns the fixed
sentinel `datetime(2000, 1, 1)`; the slice clamps, so it never fails. -/
def Datetime.parse (b : List Nat) : Except PError (Value × List Nat) :=
  .ok (.datetime 2000 1 1, b.drop 8)

/-- `Unit.parse` (marker 0x1b): skips 12 bytes, returns the placeholder
string; the slice clamps, so it never fails. -/
def Unit.parse (b : List Nat) : Except PError (Value × List Nat) :=
  .ok (.str "Unit: ", b.drop 12)

/-- `RGBA.parse` (marker 0x09): formats `b[:4]` as four channel values.
With fewer than 4 bytes Python's `str.format` runs out of positional
arguments and raises `IndexError`. -/
def RGBA.parse (b : List Nat) : Except PError (Value × List Nat) :=
  match b with
  | b0 :: b1 :: b2 :: b3 :: rest =>
    .ok (.str ("RGBA(" ++ toString b0 ++ "," ++ toString b1 ++ "," ++
      toString b2 ++ "," ++ toString b3 ++ ")"), rest)
  | _ => .error .indexError

/-- `StringRef.parse` (marker 0x1f): varint index, rendered as an
unresolved reference descriptor. -/
def StringRef.parse (b : List Nat) : Except PError (Value × List Nat) := do
  let (val, remain) ← Integer.parse b
  .ok (.str ("Stringref #" ++ toString val), remain)

/-- `FormattedString.parse` (marker 0x28): sub-marker 0x29 → two strings
combined template-first, 0x2b → integer type reference then a string;
anything else raises `ViewStateException` (fixed message text here, as for
`VType.parse`). -/
def FormattedString.parse (b : List Nat) : Except PError (Value × List Nat) :=
  match b with
  | [] => .error .indexError
  | flag :: rest =>
    if flag = 0x29 then do
      let (s1, remain) ← String.parse rest
      let (s2, remain') ← String.parse remain
      .ok (.str ("Formatted string: " ++ s2 ++ " " ++ s1), remain')
    else if flag = 0x2b then do
      let (i, remain) ← Integer.parse rest
      let (s, remain') ← String.parse remain
      .ok (.str ("Formatted string: " ++ s ++ " type ref " ++ toString i), remain')
    else .error (.viewState "Unknown formatted string type marker")

/-- The element loop of `StringArray.parse`: for each of `n` elements, if
the next byte is falsy (`if not remain[0]`, i.e. the byte is 0) consume it
and produce `''`, otherwise decode a length-prefixed string.  Reading
`remain[0]` on an empty buffer raises `IndexError`. -/
def stringArrayLoop : Nat → List Nat → Except PError (List String × List Nat)
  | 0, remain => .ok ([], remain)
  | n + 1, remain =>
    match remain with
    | [] => .error .indexError
    | b0 :: rest => do
      let (val, r) ← if b0 = 0 then (.ok ("", rest) : Except PError (String × List Nat))
                     else String.parse (b0 :: rest)
      let (l, r') ← stringArrayLoop n r
      .ok (val :: l, r')

/-- `StringArray.parse` (marker 0x15): varint count, then the element loop. -/
def StringArray.parse (b : List Nat) : Except PError (Value × List Nat) := do
  let (n, remain) ← Integer.parse b
  let (l, r) ← stringArrayLoop n remain
  .ok (.list (l.map Value.str), r)

/-- The element loop of `Array.parse` / `TypedArray.parse`: decode `n`
values through the dispatch core `p` (the Python `Parser.parse` at the
current fuel), appending in order. -/
def arrayLoop (p : List Nat → Except PError (Value × List Nat)) :
    Nat → List Nat → Except PError (List Value × List Nat)
  | 0, remain => .ok ([], remain)
  | n + 1, remain => do
    let (val, r) ← p remain
    let (l, r') ← arrayLoop p n r
    .ok (val :: l, r')

/-- `Array.parse` (marker 0x16): varint count, then `n` dispatched values. -/
def Array.parse (p : List Nat → Except PError (Value × List Nat))
    (b : List Nat) : Except PError (Value × List Nat) := do
  let (n, remain) ← Integer.parse b
  let (l, r) ← arrayLoop p n remain
  .ok (.list l, r)

/-- `Pair.parse` (marker 0x0f): two dispatched values as a fixed tuple. -/
def Pair.parse (p : List Nat → Except PError (Value × List Nat))
    (b : List Nat) : Except PError (Value × List Nat) := do
  let (first, remain) ← p b
  let (second, remain') ← p remain
  .ok (.pair first second, remain')

/-- `Triplet.parse` (marker 0x10): three dispatched values as a fixed
tuple. -/
def Triplet.parse (p : List Nat → Except PError (Value × List Nat))
    (b : List Nat) : Except PError (Value × List Nat) := do
  let (first, remain) ← p b
  let (second, remain') ← p remain
  let (third, remain'') ← p remain'
  .ok (.triplet first second third, remain'')

/-- Python `d[k] = v` on an insertion-ordered dict: an existing key (under
`==`) keeps its position and gets the new value, a new key is appended. -/
def assocSet (d : List (Value × Value)) (k v : Value) : List (Value × Value) :=
  if d.any (fun e => e.1 == k) then
    d.map (fun e => if e.1 == k then (e.1, v) else e)
  else d ++ [(k, v)]

/-- The entry loop of `Dict.parse`: for each of `n` entries decode a key
and a value through the dispatch core, then execute `d[k] = v`, which
raises `TypeError` when the key is unhashable (a list or dict, or a tuple
containing one). -/
def dictLoop (p : List Nat → Except PError (Value × List Nat)) :
    Nat → List (Value × Value) → List Nat →
    Except PError (List (Value × Value) × List Nat)
  | 0, d, remain => .ok (d, remain)
  | n + 1, d, remain => do
    let (k, r1) ← p remain
    let (v, r2) ← p r1
    if k.hashable then dictLoop p n (assocSet d k v) r2
    else .error .typeError

/-- `Dict.parse` (marker 0x18): the entry count is the single raw byte
`b[0]` (never a varint), then the entry loop starting from `b[1:]`. -/
def Dict.parse (p : List Nat → Except PError (Value × List Nat))
    (b : List Nat) : Except PError (Value × List Nat) :=
  match b with
  | [] => .error .indexError
  | n :: remain => (dictLoop p n [] remain).map (fun r => (.dict r.1, r.2))

/-- The entry loop of `SparseArray.parse`: `n` times decode a varint index
and a dispatched value, then execute `l[idx] = val`, which raises
`IndexError` when `idx` is not below the list length. -/
def sparseLoop (p : List Nat → Except PError (Value × List Nat)) :
    Nat → List Value → List Nat → Except PError (List Value × List Nat)
  | 0, l, remain => .ok (l, remain)
  | n + 1, l, remain => do
    let (idx, r1) ← Integer.parse remain
    let (val, r2) ← p r1
    if idx < l.length then sparseLoop p n (l.set idx val) r2
    else .error .indexError

/-- `SparseArray.parse` (marker 0x3c): type descriptor (consumed, unused),
varint `length`, varint `n`, then the entry loop over `[None] * length`. -/
def SparseArray.parse (p : List Nat → Except PError (Value × List Nat))
    (b : List Nat) : Except PError (Value × List Nat) := do
  let (_t, r0) ← VType.parse b
  let (length, r1) ← Integer.parse r0
  let (n, r2) ← Integer.parse r1
  let (l, r3) ← sparseLoop p n (List.replicate length Value.none) r2
  .ok (.list l, r3)

/-- `TypedArray.parse` (marker 0x14): type descriptor (consumed, its value
discarded), varint count, then `n` dispatched values. -/
def TypedArray.parse (p : List Nat → Except PError (Value × List Nat))
    (b : List Nat) : Except PError (Value × List Nat) := do
  let (_typeval, remain) ← VType.parse b
  let (n, remain') ← Integer.parse remain
  let (l, r) ← arrayLoop p n remain'
  .ok (.list l, r)

/-- The dispatch core `Parser.parse`: reads `b[0]` as the marker
(`IndexError` on an empty buffer), looks it up in the metaclass-built
registry (an unknown marker raises `ViewStateException`), and invokes the
decoder on `b[1:]`.  The if-chain below IS the registry: one arm per
registered `marker` class attribute, the five `Const` subclasses inlined to
their fixed results.  Fuel replaces Python's unbounded recursion; each
dispatch consumes one unit and composite decoders receive the dispatch at
the decremented fuel. -/
def Parser.parse : Nat → List Nat → Except PError (Value × List Nat)
  | 0, _ => .error .outOfFuel
  | fuel + 1, b =>
    match b with
    | [] => .error .indexError
    | marker :: remain =>
      if marker = 0x64 then .ok (.none, remain)
      else if marker = 0x65 then .ok (.str "", remain)
      else if marker = 0x66 then .ok (.int 0, remain)
      else if marker = 0x67 then .ok (.bool true, remain)
      else if marker = 0x68 then .ok (.bool false, remain)
      else if marker = 0x02 then (Integer.parse remain).map (fun r => (.int r.1, r.2))
      else if marker = 0x05 ∨ marker = 0x1e then
        (String.parse remain).map (fun r => (.str r.1, r.2))
      else if marker = 0x0b then Enum.parse remain
      else if marker = 0x0a then Color.parse remain
      else if marker = 0x0f then Pair.parse (Parser.parse fuel) remain
      else if marker = 0x10 then Triplet.parse (Parser.parse fuel) remain
      else if marker = 0x06 then Datetime.parse remain
      else if marker = 0x1b then Unit.parse remain
      else if marker = 0x09 then RGBA.parse remain
      else if marker = 0x15 then StringArray.parse remain
      else if marker = 0x16 then Array.parse (Parser.parse fuel) remain
      else if marker = 0x1f then StringRef.parse remain
      else if marker = 0x28 then FormattedString.parse remain
      else if marker = 0x3c then SparseArray.parse (Parser.parse fuel) remain
      else if marker = 0x18 then Dict.parse (Parser.parse fuel) remain
      else if marker = 0x14 then TypedArray.parse (Parser.parse fuel) remain
      else .error (.viewState ("Unknown marker " ++ toString marker))

/-! ## Helper lemmas -/

/-- Reduction of `Except` bind on a success value. -/
theorem exceptBind_ok {ε α β : Type} (a : α) (f : α → Except ε β) :
    (Except.ok a : Except ε α) >>= f = f a := rfl

/-- Reduction of `Except` bind on an error value. -/
theorem exceptBind_error {ε α β : Type} (e : ε) (f : α → Except ε β) :
    (Except.error e : Except ε α) >>= f = .error e := rfl

/-- Reduction of `Except.map` on a success value. -/
theorem exceptMap_ok {ε α β : Type} (f : α → β) (a : α) :
    Except.map f (Except.ok a : Except ε α) = .ok (f a) := rfl

/-- Reduction of `Except.map` on an error value. -/
theorem exceptMap_error {ε α β : Type} (f : α → β) (e : ε) :
    Except.map f (Except.error e : Except ε α) = .error e := rfl

/-! ## Claims -/

/-- Claim C1, counterexample.  The claim says every decoder fails with
`TruncatedInput` on a strict prefix of a valid encoded value and never
returns a valid result.  `[0x91, 0x01]` is a valid 2-byte `Color` payload
(the spec's Salmon example), yet `Color.parse` on its strict prefix
`[0x91]` succeeds with the same placeholder value: Python's slice `b[2:]`
clamps instead of checking length. -/
theorem claim1_counterexample :
    Color.parse [0x91, 0x01] = .ok (.str "Color: unknown", []) ∧
    Color.parse [0x91] = .ok (.str "Color: unknown", []) :=
  ⟨rfl, rfl⟩

/-- Claim C1, amended.  No decoder raises a `TruncatedInput` error.
Slice-based decoders silently succeed on truncated input: `Color.parse`
succeeds on every buffer (even empty), and `String.parse` on
`[0x02, 0x61]`, a strict prefix of the valid encoding `[0x02, 0x61, 0x62]`
of `"ab"`, succeeds with the shortened string `"a"`.  Index-based reads
surface truncation as a raw `IndexError` instead, as `Integer.parse` on the
empty buffer shows. -/
theorem claim1_amended :
    (∀ b : List Nat, Color.parse b = .ok (.str "Color: unknown", b.drop 2)) ∧
    String.parse [0x02, 0x61, 0x62] = .ok ("ab", []) ∧
    String.parse [0x02, 0x61] = .ok ("a", []) ∧
    Integer.parse [] = .error .indexError :=
  ⟨fun _ => rfl, rfl, rfl, rfl⟩

/-- Claim C4, counterexample.  The claim says the varint value is truncated
at 32 bits (< 2^32).  Five continuation bytes `0xff` decode to
`2^35 - 1 = 34359738367`: the loop stops reading after 5 bytes but the
fifth byte still contributes 7 bits at offset 28, so the value reaches 35
bits. -/
theorem claim4_counterexample :
    Integer.parse [0xff, 0xff, 0xff, 0xff, 0xff] = .ok (34359738367, []) ∧
    ¬(34359738367 < 2 ^ 32) :=
  ⟨rfl, by decide⟩

/-- Claim C5: the dictionary entry count is the single raw byte after the
marker, not a varint.  A count byte 0 yields the empty mapping consuming
exactly that one byte (first conjunct, for every fuel and trailing bytes).
The second conjunct separates the raw-byte read from a varint read: on
`[0x18, 0x80, 0x00]` a varint count would be 0 (continuation byte `0x80`
then `0x00`) giving an empty dict, but the code takes count = 128 and
dispatches on the next byte `0x00`, an unknown marker. -/
theorem claim5_dict_count (fuel : Nat) (rest : List Nat) :
    Parser.parse (fuel + 1) (0x18 :: 0x00 :: rest) = .ok (.dict [], rest) ∧
    Parser.parse (fuel + 2) [0x18, 0x80, 0x00] =
      .error (.viewState "Unknown marker 0") :=
  ⟨rfl, rfl⟩

/-- Claim C6, counterexample.  The claim says a container-typed dictionary
key fails with `UnsupportedKeyType`.  On `[0x18, 0x01, 0x16, 0x00, 0x64]`
(dict of one entry whose key is the empty array `[]`) decoding does fail,
but with the Python `TypeError` raised by hashing the list in `d[k] = v`,
not with any `UnsupportedKeyType` error — no such check exists in the
source. -/
theorem claim6_counterexample :
    Parser.parse 3 [0x18, 0x01, 0x16, 0x00, 0x64] = .error .typeError ∧
    PError.typeError ≠ PError.unsupportedKeyType :=
  ⟨rfl, by decide⟩

/-- Claim C6, amended.  For every dictionary entry whose decoded key is a
container-typed value (a list or a dict), the entry loop fails — with the
`TypeError` that Python's `d[k] = v` raises on an unhashable key, not with
an explicit `UnsupportedKeyType` error. -/
theorem claim6_amended (fuel n : Nat) (d : List (Value × Value))
    (remain r1 r2 : List Nat) (k v : Value)
    (hk : Parser.parse fuel remain = .ok (k, r1))
    (hv : Parser.parse fuel r1 = .ok (v, r2))
    (hcontainer : (∃ l, k = .list l) ∨ (∃ dd, k = .dict dd)) :
    dictLoop (Parser.parse fuel) (n + 1) d remain = .error .typeError := by
  have hh : k.hashable = false := by
    rcases hcontainer with ⟨l, rfl⟩ | ⟨dd, rfl⟩ <;> rfl
  simp [dictLoop, hk, hv, hh, exceptBind_ok]

/-- Claim C6, witness for the amended theorem: the concrete entry whose key
decodes to the empty list. -/
theorem claim6_witness :
    dictLoop (Parser.parse 2) 1 [] [0x16, 0x00, 0x64] = .error .typeError :=
  claim6_amended 2 0 [] [0x16, 0x00, 0x64] [0x64] [] (.list []) .none
    rfl rfl (Or.inl ⟨[], rfl⟩)

/-- Claim C7: string-array elements.  First conjunct: a string array of
count 1 whose element byte is 0 decodes to `[""]`, consuming that single
byte, for any trailing bytes.  Second: through the dispatch core,
`15 01 00` decodes to `[""]` with nothing remaining.  Third and fourth: the
general per-element rule — a zero next byte is consumed producing the empty
string, a nonzero next byte decodes a full length-prefixed string. -/
theorem claim7_string_array :
    (∀ rest : List Nat,
      StringArray.parse (0x01 :: 0x00 :: rest) = .ok (.list [.str ""], rest)) ∧
    (∀ fuel : Nat,
      Parser.parse (fuel + 1) [0x15, 0x01, 0x00] = .ok (.list [.str ""], [])) ∧
    (∀ (n : Nat) (rest : List Nat),
      stringArrayLoop (n + 1) (0x00 :: rest) =
        (stringArrayLoop n rest).map (fun r => ("" :: r.1, r.2))) ∧
    (∀ (n b0 : Nat) (rest : List Nat), b0 ≠ 0 →
      stringArrayLoop (n + 1) (b0 :: rest) =
        (String.parse (b0 :: rest)).bind (fun sr =>
          (stringArrayLoop n sr.2).map (fun r => (sr.1 :: r.1, r.2)))) := by
  refine ⟨fun rest => rfl, fun fuel => rfl, fun n rest => ?_, fun n b0 rest hb => ?_⟩
  · cases h : stringArrayLoop n rest with
    | error e =>
      simp [stringArrayLoop, exceptBind_ok, exceptBind_error, exceptMap_error, h]
    | ok r =>
      obtain ⟨l, r'⟩ := r
      simp [stringArrayLoop, exceptBind_ok, exceptMap_ok, h]
  · simp only [stringArrayLoop, if_neg hb]
    cases hs : String.parse (b0 :: rest) with
    | error e => simp [exceptBind_error, Except.bind, hs]
    | ok sr =>
      obtain ⟨s, r⟩ := sr
      cases h : stringArrayLoop n r with
      | error e =>
        simp [exceptBind_ok, exceptBind_error, exceptMap_error, Except.bind, hs, h]
      | ok lr =>
        obtain ⟨l, r'⟩ := lr
        simp [exceptBind_ok, exceptMap_ok, Except.bind, hs, h]

/-- Claim C7, witness for the nonzero-element-byte rule at a concrete
input. -/
theorem claim7_witness :
    stringArrayLoop 1 [0x05] =
      (String.parse [0x05]).bind (fun sr =>
        (stringArrayLoop 0 sr.2).map (fun r => (sr.1 :: r.1, r.2))) :=
  claim7_string_array.2.2.2 0 0x05 [] (by decide)

/-- Claim C10: for any enum sub-marker other than 0x29, 0x2a, 0x2b, the
source's if/elif chain assigns neither `enum` nor `remain`, and the
following `Integer.parse(remain)` raises `UnboundLocalError` — not a
`ViewStateException` and nothing from the spec's error taxonomy. -/
theorem claim10_enum_gap (flag : Nat) (rest : List Nat)
    (h29 : flag ≠ 0x29) (h2a : flag ≠ 0x2a) (h2b : flag ≠ 0x2b) :
    Enum.parse (flag :: rest) = .error .unboundLocalError := by
  simp [Enum.parse, h29, h2a, h2b]

/-- Claim C10, witness at sub-marker 0. -/
theorem claim10_witness : Enum.parse [0x00] = .error .unboundLocalError :=
  claim10_enum_gap 0 [] (by decide) (by decide) (by decide)

/-- Claim C9: the type descriptor of a typed array is informational only.
For two typed-array payloads that differ only in their (valid) descriptor
region — `Type.parse` consumes exactly `d1` resp. `d2` and leaves the same
`rest` — the whole decode result (elements and remaining bytes) is
identical: the descriptor's value is discarded and every element is decoded
by generic marker dispatch on `rest`. -/
theorem claim9_type_noninterference (fuel : Nat) (d1 d2 rest : List Nat)
    (t1 t2 : Value)
    (h1 : VType.parse (d1 ++ rest) = .ok (t1, rest))
    (h2 : VType.parse (d2 ++ rest) = .ok (t2, rest)) :
    TypedArray.parse (Parser.parse fuel) (d1 ++ rest) =
      TypedArray.parse (Parser.parse fuel) (d2 ++ rest) := by
  simp [TypedArray.parse, h1, h2, exceptBind_ok]

/-- Claim C9, witness: an integer-reference descriptor `[0x2b, 0x00]`
versus a string descriptor `[0x29, 0x00]` in front of the same count and
elements. -/
theorem claim9_witness :
    TypedArray.parse (Parser.parse 1) [0x2b, 0x00, 0x00] =
      TypedArray.parse (Parser.parse 1) [0x29, 0x00, 0x00] :=
  claim9_type_noninterference 1 [0x2b, 0x00] [0x29, 0x00] [0x00]
    (.int 0) (.str "") rfl rfl

/-! ## Varint round-trip (C3) -/

/-- Modelled from the spec: the canonical varint encoding of an unsigned
integer — low 7 bits per byte in little-endian order, the continuation bit
0x80 set on every byte but the last.  The repository has no write path;
this definition follows the spec's description of the encoding. -/
def encode_varint (v : Nat) : List Nat :=
  if v < 128 then [v]
  else (v % 128 + 128) :: encode_varint (v / 128)
termination_by v
decreasing_by exact Nat.div_lt_self (by omega) (by omega)

/-- Low 7 bits of a byte below 128 are the byte itself. -/
theorem and127_of_lt (x : Nat) (hx : x < 128) : x &&& 127 = x := by
  have h : (127 : Nat) = 2 ^ 7 - 1 := by norm_num
  rw [h]
  exact Nat.and_pow_two_sub_one_of_lt_two_pow (by norm_num at hx ⊢; omega)

/-- A byte below 128 has a clear continuation bit. -/
theorem and128_of_lt (x : Nat) (hx : x < 128) : x &&& 128 = 0 := by
  apply Nat.eq_of_testBit_eq
  intro i
  have h : (128 : Nat) = 2 ^ 7 := by norm_num
  simp only [Nat.testBit_and, Nat.zero_testBit, h, Nat.testBit_two_pow]
  by_cases hi : 7 = i
  · subst hi
    simp [Nat.testBit_lt_two_pow (show x < 2 ^ 7 by norm_num; omega)]
  · simp [hi]

/-- Adding the continuation bit to a 7-bit payload: the low bits are
unchanged. -/
theorem plus128_and127 (x : Nat) (hx : x < 128) : (x + 128) &&& 127 = x := by
  have h : (127 : Nat) = 2 ^ 7 - 1 := by norm_num
  rw [h, Nat.and_pow_two_sub_one_eq_mod]
  omega

/-- Adding the continuation bit to a 7-bit payload: the high bit is set. -/
theorem plus128_and128 (x : Nat) (hx : x < 128) : (x + 128) &&& 128 = 128 := by
  apply Nat.eq_of_testBit_eq
  intro i
  rw [Nat.testBit_and]
  by_cases hi : i = 7
  · subst hi
    have ht : (x + 128).testBit 7 = true := by
      rw [Nat.testBit_to_div_mod]
      apply decide_eq_true
      rw [show (2:Nat) ^ 7 = 128 from by norm_num]
      omega
    have h128 : (128 : Nat).testBit 7 = true := by decide
    rw [ht, h128]
    rfl
  · have h128 : (128 : Nat).testBit i = false := by
      rw [show (128 : Nat) = 2 ^ 7 from by norm_num, Nat.testBit_two_pow]
      simp
      omega
    rw [h128, Bool.and_false]

/-- Splitting one varint byte off the accumulated OR: accumulating the low
7 bits of `v` at offset `bits` and the rest at offset `bits + 7` equals
accumulating `v` whole at offset `bits`. -/
theorem varint_byte_split (n v bits : Nat) :
    (n ||| (v % 128) <<< bits) ||| (v / 128) <<< (bits + 7) = n ||| v <<< bits := by
  apply Nat.eq_of_testBit_eq
  intro i
  have hdiv : v / 128 = v >>> 7 := by
    rw [Nat.shiftRight_eq_div_pow]
  have hmod : v % 128 = v % 2 ^ 7 := by norm_num
  rw [hdiv, hmod]
  simp only [Nat.testBit_or, Nat.testBit_shiftLeft, Nat.testBit_shiftRight,
    Nat.testBit_mod_two_pow]
  rcases Nat.lt_or_ge i bits with h1 | h1
  · simp [Nat.not_le.2 h1, show ¬(bits + 7 ≤ i) by omega]
  · rcases Nat.lt_or_ge i (bits + 7) with h2 | h2
    · have e1 : i - bits < 7 := by omega
      simp [h1, Nat.not_le.2 h2, e1]
    · have e1 : ¬(i - bits < 7) := by omega
      have e2 : 7 + (i - (bits + 7)) = i - bits := by omega
      simp only [h1, h2, decide_eq_true_eq, decide_True, Bool.true_and, e1,
        decide_False, Bool.false_and, Bool.or_false, Bool.false_or, e2]

/-- Decoding the canonical encoding of `v` from shift offset `bits` with
accumulator `n` succeeds with `n ||| v <<< bits` and consumes every byte,
provided `v` fits the bits remaining below the 32-bit cutoff. -/
theorem varint_roundtrip_aux (v : Nat) : ∀ bits n : Nat, bits < 32 →
    v < 2 ^ (32 - bits) →
    Integer.parseAux bits n (encode_varint v) = .ok (n ||| v <<< bits, []) := by
  induction v using Nat.strong_induction_on with
  | _ v ih =>
    intro bits n hb hv
    rw [encode_varint]
    by_cases h : v < 128
    · rw [if_pos h]
      show Integer.parseAux bits n [v] = _
      rw [Integer.parseAux, if_pos hb, and127_of_lt v h, if_pos (and128_of_lt v h)]
    · rw [if_neg h]
      have hx : v % 128 < 128 := Nat.mod_lt _ (by omega)
      have hb7 : bits + 7 < 32 := by
        by_contra hc
        have h1 : 32 - bits ≤ 7 := by omega
        have h2 : (2:Nat) ^ (32 - bits) ≤ 2 ^ 7 := Nat.pow_le_pow_right (by omega) h1
        omega
      have hv7 : v / 128 < 2 ^ (32 - (bits + 7)) := by
        rw [Nat.div_lt_iff_lt_mul (show 0 < 128 by omega)]
        calc v < 2 ^ (32 - bits) := hv
        _ = 2 ^ (32 - (bits + 7)) * 128 := by
          rw [show (128:Nat) = 2 ^ 7 by norm_num, ← Nat.pow_add]
          congr 1
          omega
      show Integer.parseAux bits n ((v % 128 + 128) :: encode_varint (v / 128)) = _
      rw [Integer.parseAux, if_pos hb, plus128_and127 _ hx,
        if_neg (by rw [plus128_and128 _ hx]; omega),
        ih (v / 128) (Nat.div_lt_self (by omega) (by omega)) (bits + 7)
          (n ||| (v % 128) <<< bits) hb7 hv7,
        varint_byte_split]

/-- Claim C3: for every `v < 2^28`, decoding the canonical varint encoding
of `v` returns exactly `(v, [])`; and the two bytes `0x8c 0x02` decode to
268. -/
theorem claim3_varint_roundtrip (v : Nat) (hv : v < 2 ^ 28) :
    Integer.parse (encode_varint v) = .ok (v, []) ∧
    Integer.parse [0x8c, 0x02] = .ok (268, []) := by
  refine ⟨?_, rfl⟩
  have h28 : (2:Nat) ^ 28 ≤ 2 ^ (32 - 0) := Nat.pow_le_pow_right (by omega) (by omega)
  have h := varint_roundtrip_aux v 0 0 (by omega) (Nat.lt_of_lt_of_le hv h28)
  simpa [Integer.parse, Nat.shiftLeft_zero] using h

/-- Claim C3, witness at `v = 268` (whose canonical encoding is
`0x8c 0x02`). -/
theorem claim3_witness :
    Integer.parse (encode_varint 268) = .ok (268, []) ∧
    Integer.parse [0x8c, 0x02] = .ok (268, []) :=
  claim3_varint_roundtrip 268 (by norm_num)

/-! ## Varint consumption bounds (C4) -/

/-- One accumulation step keeps the value below 2^35 while the shift offset
stays at most 28. -/
theorem acc_lt_two_pow_35 (n t bits : Nat) (hb : bits ≤ 28) (hn : n < 2 ^ 35) :
    n ||| ((t &&& 0x7f) <<< bits) < 2 ^ 35 := by
  apply Nat.or_lt_two_pow hn
  rw [Nat.shiftLeft_eq]
  calc (t &&& 0x7f) * 2 ^ bits ≤ 127 * 2 ^ 28 :=
    Nat.mul_le_mul Nat.and_le_right (Nat.pow_le_pow_right (by omega) hb)
  _ < 2 ^ 35 := by norm_num

/-- Once the shift offset reaches 32, the loop exits immediately, returning
the accumulator and the unread suffix unchanged. -/
theorem parseAux_stop (r : List Nat) (bits n : Nat) (hb : ¬bits < 32) :
    Integer.parseAux bits n r = .ok (n, r) := by
  cases r <;> simp [Integer.parseAux, hb]

/-- Consumption/termination behavior of the varint loop, indexed by the
number `c` of bytes already consumed (so the shift offset is `7 * c`): a
successful decode from that state consumes `k` more bytes with
`k + c ≤ 5`, the result stays below 2^35, every consumed byte before the
last has its continuation bit set, and unless the 5-byte cutoff was hit the
last consumed byte has a clear continuation bit. -/
theorem parseAux_consumption : ∀ (rem : List Nat) (c n v : Nat) (rem' : List Nat),
    c ≤ 4 → n < 2 ^ 35 → Integer.parseAux (7 * c) n rem = .ok (v, rem') →
    ∃ k, 1 ≤ k ∧ k + c ≤ 5 ∧ rem' = rem.drop k ∧ v < 2 ^ 35 ∧
      (∀ j, j + 1 < k → rem.getD j 0 &&& 0x80 ≠ 0) ∧
      (k + c < 5 → rem.getD (k - 1) 0 &&& 0x80 = 0) := by
  intro rem
  induction rem with
  | nil =>
    intro c n v rem' hc hn h
    rw [Integer.parseAux] at h
    rw [if_pos (show 7 * c < 32 by omega)] at h
    exact absurd h (by simp)
  | cons tmp rest ih =>
    intro c n v rem' hc hn h
    rw [Integer.parseAux] at h
    rw [if_pos (show 7 * c < 32 by omega)] at h
    by_cases hterm : tmp &&& 0x80 = 0
    · rw [if_pos hterm] at h
      rw [Except.ok.injEq, Prod.mk.injEq] at h
      obtain ⟨hv', hrem'⟩ := h
      subst hv'
      subst hrem'
      refine ⟨1, by omega, by omega, rfl, acc_lt_two_pow_35 n tmp _ (by omega) hn,
        fun j hj => absurd hj (by omega), fun _ => ?_⟩
      simpa using hterm
    · rw [if_neg hterm] at h
      by_cases hc4 : c < 4
      · have h' : Integer.parseAux (7 * (c + 1))
            (n ||| ((tmp &&& 0x7f) <<< (7 * c))) rest = .ok (v, rem') := by
          rw [show 7 * (c + 1) = 7 * c + 7 by omega]
          exact h
        obtain ⟨k, hk1, hk5, hdrop, hv35, hbytes, hlast⟩ :=
          ih (c + 1) _ v rem' (by omega)
            (acc_lt_two_pow_35 n tmp _ (by omega) hn) h'
        refine ⟨k + 1, by omega, by omega, ?_, hv35, ?_, ?_⟩
        · rw [List.drop_succ_cons]
          exact hdrop
        · intro j hj
          cases j with
          | zero => simpa using hterm
          | succ j' =>
            have hb := hbytes j' (by omega)
            simpa using hb
        · intro hlt
          have hres := hlast (by omega)
          have hk : k + 1 - 1 = (k - 1) + 1 := by omega
          rw [hk, List.getD_cons_succ]
          exact hres
      · have hc4' : c = 4 := by omega
        subst hc4'
        rw [show 7 * 4 + 7 = 35 by norm_num] at h
        rw [parseAux_stop rest 35 _ (by omega)] at h
        rw [Except.ok.injEq, Prod.mk.injEq] at h
        obtain ⟨hv', hrem'⟩ := h
        subst hv'
        subst hrem'
        exact ⟨1, by omega, by omega, rfl,
          acc_lt_two_pow_35 n tmp _ (by omega) hn,
          fun j hj => absurd hj (by omega), fun hlt => absurd hlt (by omega)⟩

/-- Claim C4, amended.  On every successful varint decode the loop stops at
the first clear-continuation-bit byte (consuming it), consumes at most 5
bytes (when the 32-bit offset threshold is crossed it stops after the byte
that crossed it), and the resulting value is below 2^35 — not below 2^32 as
the claim states: the fifth byte still contributes 7 bits at offset 28. -/
theorem claim4_amended (b : List Nat) (v : Nat) (rem : List Nat)
    (h : Integer.parse b = .ok (v, rem)) :
    ∃ k, 1 ≤ k ∧ k ≤ 5 ∧ rem = b.drop k ∧ v < 2 ^ 35 ∧
      (∀ j, j + 1 < k → b.getD j 0 &&& 0x80 ≠ 0) ∧
      (k < 5 → b.getD (k - 1) 0 &&& 0x80 = 0) := by
  have h0 : Integer.parseAux (7 * 0) 0 b = .ok (v, rem) := h
  obtain ⟨k, h1, h5, hd, hv, hb2, hl⟩ :=
    parseAux_consumption b 0 0 v rem (by omega) (by norm_num) h0
  exact ⟨k, h1, by omega, hd, hv, hb2, fun hk => hl (by omega)⟩

/-- Claim C4, witness at the single-byte varint `[0x05]`. -/
theorem claim4_witness :
    ∃ k, 1 ≤ k ∧ k ≤ 5 ∧ ([] : List Nat) = [0x05].drop k ∧ 5 < 2 ^ 35 ∧
      (∀ j, j + 1 < k → [0x05].getD j 0 &&& 0x80 ≠ 0) ∧
      (k < 5 → [0x05].getD (k - 1) 0 &&& 0x80 = 0) :=
  claim4_amended [0x05] 5 [] rfl

/-! ## Sparse-array invariants (C2) -/

/-- Observer of the sparse-array entry stream: decodes the same `n`
(index, value) entries as `sparseLoop` from the same bytes, but collects
them instead of writing them.  Used only to state which entries a
successful decode read. -/
def sparseEntries (p : List Nat → Except PError (Value × List Nat)) :
    Nat → List Nat → Except PError (List (Nat × Value) × List Nat)
  | 0, remain => .ok ([], remain)
  | n + 1, remain => do
    let (idx, r1) ← Integer.parse remain
    let (val, r2) ← p r1
    let (es, r3) ← sparseEntries p n r2
    .ok ((idx, val) :: es, r3)

/-- Writing a list of entries with `List.set` preserves the length. -/
theorem foldl_set_length (entries : List (Nat × Value)) :
    ∀ l : List Value,
      (entries.foldl (fun acc e => acc.set e.1 e.2) l).length = l.length := by
  induction entries with
  | nil => intro l; rfl
  | cons e es ih => intro l; rw [List.foldl_cons, ih, List.length_set]

/-- A slot touched by none of the written entries keeps its original
content. -/
theorem foldl_set_unwritten (entries : List (Nat × Value)) :
    ∀ (l : List Value) (j : Nat), (∀ e ∈ entries, e.1 ≠ j) →
      (entries.foldl (fun acc e => acc.set e.1 e.2) l)[j]? = l[j]? := by
  induction entries with
  | nil => intro l j _; rfl
  | cons e es ih =>
    intro l j hj
    rw [List.foldl_cons, ih _ j (fun e' he' => hj e' (List.mem_cons_of_mem _ he')),
      List.getElem?_set_ne (hj e (List.mem_cons_self _ _))]

/-- A successful run of the sparse entry loop is exactly: read the entries
`sparseEntries` reads, check each index against the (constant) list length,
and fold the writes over the initial list. -/
theorem sparseLoop_entries (p : List Nat → Except PError (Value × List Nat)) :
    ∀ (n : Nat) (l : List Value) (remain : List Nat) (l' : List Value)
      (rem : List Nat),
      sparseLoop p n l remain = .ok (l', rem) →
      ∃ entries, sparseEntries p n remain = .ok (entries, rem) ∧
        entries.length = n ∧
        (∀ e ∈ entries, e.1 < l.length) ∧
        l' = entries.foldl (fun acc e => acc.set e.1 e.2) l := by
  intro n
  induction n with
  | zero =>
    intro l remain l' rem h
    rw [sparseLoop, Except.ok.injEq, Prod.mk.injEq] at h
    obtain ⟨h1, h2⟩ := h
    subst h1
    subst h2
    exact ⟨[], rfl, rfl, by simp, rfl⟩
  | succ n ih =>
    intro l remain l' rem h
    rw [sparseLoop] at h
    cases hI : Integer.parse remain with
    | error e => rw [hI] at h; exact absurd h (by simp [exceptBind_error])
    | ok ir =>
      obtain ⟨idx, r1⟩ := ir
      simp only [hI, exceptBind_ok] at h
      cases hp : p r1 with
      | error e =>
        simp only [hp, exceptBind_error] at h
        exact absurd h (by simp)
      | ok vr =>
        obtain ⟨val, r2⟩ := vr
        simp only [hp, exceptBind_ok] at h
        by_cases hidx : idx < l.length
        · rw [if_pos hidx] at h
          obtain ⟨es, hes, hlen, hbound, hfold⟩ := ih (l.set idx val) r2 l' rem h
          refine ⟨(idx, val) :: es, ?_, by simp [hlen], ?_, ?_⟩
          · simp only [sparseEntries, hI, exceptBind_ok, hp, hes]
          · intro e he
            rcases List.mem_cons.1 he with rfl | he'
            · exact hidx
            · have := hbound e he'
              rwa [List.length_set] at this
          · rw [List.foldl_cons]
            exact hfold
        · rw [if_neg hidx] at h
          exact absurd h (by simp)

/-- Claim C2: on every input the sparse-array decoder accepts, the returned
list's length equals the decoded `length` field; the entries actually read
(as characterized by `sparseEntries`) all have index < `length`; every slot
no entry wrote still holds the absent value `Value.none`; and (second
conjunct) an entry whose decoded index is not below the current list length
makes the entry loop fail with the index-out-of-range error rather than
succeed. -/
theorem claim2_sparse_invariant (fuel : Nat) (b : List Nat) (res : Value)
    (rem : List Nat)
    (h : SparseArray.parse (Parser.parse fuel) b = .ok (res, rem)) :
    (∃ t r0 length r1 n r2 l entries,
      VType.parse b = .ok (t, r0) ∧
      Integer.parse r0 = .ok (length, r1) ∧
      Integer.parse r1 = .ok (n, r2) ∧
      sparseEntries (Parser.parse fuel) n r2 = .ok (entries, rem) ∧
      res = .list l ∧
      l.length = length ∧
      entries.length = n ∧
      (∀ e ∈ entries, e.1 < length) ∧
      (∀ j, j < length → (∀ e ∈ entries, e.1 ≠ j) → l[j]? = some Value.none)) ∧
    (∀ (n' : Nat) (l0 : List Value) (remain r1' r2' : List Nat) (idx : Nat)
      (val : Value),
      Integer.parse remain = .ok (idx, r1') →
      Parser.parse fuel r1' = .ok (val, r2') →
      l0.length ≤ idx →
      sparseLoop (Parser.parse fuel) (n' + 1) l0 remain = .error .indexError) := by
  constructor
  · rw [SparseArray.parse] at h
    cases hT : VType.parse b with
    | error e => rw [hT] at h; exact absurd h (by simp [exceptBind_error])
    | ok tr =>
      obtain ⟨t, r0⟩ := tr
      simp only [hT, exceptBind_ok] at h
      cases hL : Integer.parse r0 with
      | error e =>
        simp only [hL, exceptBind_error] at h
        exact absurd h (by simp)
      | ok lr =>
        obtain ⟨length, r1⟩ := lr
        simp only [hL, exceptBind_ok] at h
        cases hN : Integer.parse r1 with
        | error e =>
          simp only [hN, exceptBind_error] at h
          exact absurd h (by simp)
        | ok nr =>
          obtain ⟨n, r2⟩ := nr
          simp only [hN, exceptBind_ok] at h
          cases hS : sparseLoop (Parser.parse fuel) n
              (List.replicate length Value.none) r2 with
          | error e =>
            simp only [hS, exceptBind_error] at h
            exact absurd h (by simp)
          | ok sr =>
            obtain ⟨l, r3⟩ := sr
            simp only [hS, exceptBind_ok] at h
            rw [Except.ok.injEq, Prod.mk.injEq] at h
            obtain ⟨hres, hrem⟩ := h
            subst hres
            subst hrem
            obtain ⟨entries, hes, hlen, hbound, hfold⟩ :=
              sparseLoop_entries (Parser.parse fuel) n
                (List.replicate length Value.none) r2 l r3 hS
            refine ⟨t, r0, length, r1, n, r2, l, entries, rfl, hL, hN, hes, rfl,
              ?_, hlen, ?_, ?_⟩
            · rw [hfold, foldl_set_length, List.length_replicate]
            · intro e he
              have := hbound e he
              rwa [List.length_replicate] at this
            · intro j hj hunwritten
              rw [hfold, foldl_set_unwritten entries _ j hunwritten,
                List.getElem?_replicate, if_pos hj]
  · intro n' l0 remain r1' r2' idx val hI hp hge
    simp only [sparseLoop, hI, exceptBind_ok, hp]
    rw [if_neg (by omega)]

/-- Claim C2, witness: the sparse array `[0x2b, 0x00, 0x02, 0x01, 0x00,
0x67]` (integer type descriptor, length 2, one entry writing `True` at
index 0) decodes to `[True, None]`, satisfying every conjunct of the
invariant. -/
theorem claim2_witness :
    (∃ t r0 length r1 n r2 l entries,
      VType.parse [0x2b, 0x00, 0x02, 0x01, 0x00, 0x67] = .ok (t, r0) ∧
      Integer.parse r0 = .ok (length, r1) ∧
      Integer.parse r1 = .ok (n, r2) ∧
      sparseEntries (Parser.parse 1) n r2 = .ok (entries, []) ∧
      Value.list [.bool true, .none] = .list l ∧
      l.length = length ∧
      entries.length = n ∧
      (∀ e ∈ entries, e.1 < length) ∧
      (∀ j, j < length → (∀ e ∈ entries, e.1 ≠ j) → l[j]? = some Value.none)) ∧
    (∀ (n' : Nat) (l0 : List Value) (remain r1' r2' : List Nat) (idx : Nat)
      (val : Value),
      Integer.parse remain = .ok (idx, r1') →
      Parser.parse 1 r1' = .ok (val, r2') →
      l0.length ≤ idx →
      sparseLoop (Parser.parse 1) (n' + 1) l0 remain = .error .indexError) :=
  claim2_sparse_invariant 1 [0x2b, 0x00, 0x02, 0x01, 0x00, 0x67]
    (.list [.bool true, .none]) [] rfl

/-! ## Suffix (prefix-consumption) invariant (C8) -/

/-- The varint loop only ever returns a suffix of the bytes it was given. -/
theorem integerParseAux_suffix : ∀ (rem : List Nat) (bits n v : Nat)
    (rem' : List Nat), Integer.parseAux bits n rem = .ok (v, rem') →
    rem' <:+ rem := by
  intro rem
  induction rem with
  | nil =>
    intro bits n v rem' h
    rw [Integer.parseAux] at h
    by_cases hb : bits < 32
    · rw [if_pos hb] at h
      exact absurd h (by simp)
    · rw [if_neg hb, Except.ok.injEq, Prod.mk.injEq] at h
      obtain ⟨_, h2⟩ := h
      subst h2
      exact List.suffix_refl _
  | cons tmp rest ih =>
    intro bits n v rem' h
    rw [Integer.parseAux] at h
    by_cases hb : bits < 32
    · rw [if_pos hb] at h
      by_cases ht : tmp &&& 0x80 = 0
      · rw [if_pos ht, Except.ok.injEq, Prod.mk.injEq] at h
        obtain ⟨_, h2⟩ := h
        subst h2
        exact List.suffix_cons _ _
      · rw [if_neg ht] at h
        exact (ih _ _ _ _ h).trans (List.suffix_cons _ _)
    · rw [if_neg hb, Except.ok.injEq, Prod.mk.injEq] at h
      obtain ⟨_, h2⟩ := h
      subst h2
      exact List.suffix_refl _

/-- `Integer.parse` returns a suffix of its input. -/
theorem integerParse_suffix (b : List Nat) (n : Nat) (rem : List Nat)
    (h : Integer.parse b = .ok (n, rem)) : rem <:+ b :=
  integerParseAux_suffix b 0 0 n rem h

/-- `String.parse` returns a suffix of its input. -/
theorem stringParse_suffix (b : List Nat) (s : String) (rem : List Nat)
    (h : String.parse b = .ok (s, rem)) : rem <:+ b := by
  cases hI : Integer.parse b with
  | error e =>
    simp only [String.parse, hI, exceptBind_error] at h
    exact absurd h (by simp)
  | ok nr =>
    obtain ⟨n, remain⟩ := nr
    simp only [String.parse, hI, exceptBind_ok] at h
    cases hu : utf8Decode (remain.take n) with
    | none =>
      rw [hu] at h
      exact absurd h (by simp)
    | some cs =>
      rw [hu, Except.ok.injEq, Prod.mk.injEq] at h
      obtain ⟨_, h2⟩ := h
      subst h2
      exact (List.drop_suffix n remain).trans (integerParse_suffix b n remain hI)

/-- `Type.parse` returns a suffix of its input. -/
theorem vtypeParse_suffix (b : List Nat) (v : Value) (rem : List Nat)
    (h : VType.parse b = .ok (v, rem)) : rem <:+ b := by
  cases b with
  | nil => exact absurd h (by simp [VType.parse])
  | cons flag rest =>
    simp only [VType.parse] at h
    by_cases h29 : flag = 0x29 ∨ flag = 0x2a
    · rw [if_pos h29] at h
      cases hS : String.parse rest with
      | error e =>
        rw [hS, exceptMap_error] at h
        exact absurd h (by simp)
      | ok sr =>
        rw [hS, exceptMap_ok, Except.ok.injEq, Prod.mk.injEq] at h
        obtain ⟨_, h2⟩ := h
        subst h2
        exact (stringParse_suffix rest sr.1 sr.2 (by rw [hS])).trans
          (List.suffix_cons _ _)
    · rw [if_neg h29] at h
      by_cases h2b : flag = 0x2b
      · rw [if_pos h2b] at h
        cases hI : Integer.parse rest with
        | error e =>
          rw [hI, exceptMap_error] at h
          exact absurd h (by simp)
        | ok ir =>
          rw [hI, exceptMap_ok, Except.ok.injEq, Prod.mk.injEq] at h
          obtain ⟨_, h2⟩ := h
          subst h2
          exact (integerParse_suffix rest ir.1 ir.2 (by rw [hI])).trans
            (List.suffix_cons _ _)
      · rw [if_neg h2b] at h
        exact absurd h (by simp)

/-- `Enum.parse` returns a suffix of its input. -/
theorem enumParse_suffix (b : List Nat) (v : Value) (rem : List Nat)
    (h : Enum.parse b = .ok (v, rem)) : rem <:+ b := by
  cases b with
  | nil => exact absurd h (by simp [Enum.parse])
  | cons flag rest =>
    simp only [Enum.parse] at h
    by_cases h29 : flag = 0x29 ∨ flag = 0x2a
    · rw [if_pos h29] at h
      cases hS : String.parse rest with
      | error e =>
        simp only [hS, exceptBind_error] at h
        exact absurd h (by simp)
      | ok sr =>
        obtain ⟨s, r1⟩ := sr
        simp only [hS, exceptBind_ok] at h
        cases hI : Integer.parse r1 with
        | error e =>
          simp only [hI, exceptBind_error] at h
          exact absurd h (by simp)
        | ok ir =>
          obtain ⟨val, r2⟩ := ir
          simp only [hI, exceptBind_ok] at h
          rw [Except.ok.injEq, Prod.mk.injEq] at h
          obtain ⟨_, h2⟩ := h
          subst h2
          exact ((integerParse_suffix _ _ _ hI).trans
            (stringParse_suffix _ _ _ hS)).trans (List.suffix_cons _ _)
    · rw [if_neg h29] at h
      by_cases h2b : flag = 0x2b
      · rw [if_pos h2b] at h
        cases hE : Integer.parse rest with
        | error e =>
          simp only [hE, exceptBind_error] at h
          exact absurd h (by simp)
        | ok er =>
          obtain ⟨en, r1⟩ := er
          simp only [hE, exceptBind_ok] at h
          cases hI : Integer.parse r1 with
          | error e =>
            simp only [hI, exceptBind_error] at h
            exact absurd h (by simp)
          | ok ir =>
            obtain ⟨val, r2⟩ := ir
            simp only [hI, exceptBind_ok] at h
            rw [Except.ok.injEq, Prod.mk.injEq] at h
            obtain ⟨_, h2⟩ := h
            subst h2
            exact ((integerParse_suffix _ _ _ hI).trans
              (integerParse_suffix _ _ _ hE)).trans (List.suffix_cons _ _)
      · rw [if_neg h2b] at h
        exact absurd h (by simp)

/-- `Color.parse` returns a suffix of its input. -/
theorem colorParse_suffix (b : List Nat) (v : Value) (rem : List Nat)
    (h : Color.parse b = .ok (v, rem)) : rem <:+ b := by
  rw [Color.parse, Except.ok.injEq, Prod.mk.injEq] at h
  obtain ⟨_, h2⟩ := h
  subst h2
  exact List.drop_suffix 2 b

/-- `Datetime.parse` returns a suffix of its input. -/
theorem datetimeParse_suffix (b : List Nat) (v : Value) (rem : List Nat)
    (h : Datetime.parse b = .ok (v, rem)) : rem <:+ b := by
  rw [Datetime.parse, Except.ok.injEq, Prod.mk.injEq] at h
  obtain ⟨_, h2⟩ := h
  subst h2
  exact List.drop_suffix 8 b

/-- `Unit.parse` returns a suffix of its input. -/
theorem unitParse_suffix (b : List Nat) (v : Value) (rem : List Nat)
    (h : Unit.parse b = .ok (v, rem)) : rem <:+ b := by
  rw [Unit.parse, Except.ok.injEq, Prod.mk.injEq] at h
  obtain ⟨_, h2⟩ := h
  subst h2
  exact List.drop_suffix 12 b

/-- `RGBA.parse` returns a suffix of its input. -/
theorem rgbaParse_suffix (b : List Nat) (v : Value) (rem : List Nat)
    (h : RGBA.parse b = .ok (v, rem)) : rem <:+ b := by
  match b with
  | [] => exact absurd h (by simp [RGBA.parse])
  | [b0] => exact absurd h (by simp [RGBA.parse])
  | [b0, b1] => exact absurd h (by simp [RGBA.parse])
  | [b0, b1, b2] => exact absurd h (by simp [RGBA.parse])
  | b0 :: b1 :: b2 :: b3 :: rest =>
    simp only [RGBA.parse] at h
    rw [Except.ok.injEq, Prod.mk.injEq] at h
    obtain ⟨_, h2⟩ := h
    subst h2
    exact (List.suffix_cons _ _).trans ((List.suffix_cons _ _).trans
      ((List.suffix_cons _ _).trans (List.suffix_cons _ _)))

/-- `StringRef.parse` returns a suffix of its input. -/
theorem stringRefParse_suffix (b : List Nat) (v : Value) (rem : List Nat)
    (h : StringRef.parse b = .ok (v, rem)) : rem <:+ b := by
  cases hI : Integer.parse b with
  | error e =>
    simp only [StringRef.parse, hI, exceptBind_error] at h
    exact absurd h (by simp)
  | ok ir =>
    obtain ⟨val, r⟩ := ir
    simp only [StringRef.parse, hI, exceptBind_ok] at h
    rw [Except.ok.injEq, Prod.mk.injEq] at h
    obtain ⟨_, h2⟩ := h
    subst h2
    exact integerParse_suffix _ _ _ hI

/-- `FormattedString.parse` returns a suffix of its input. -/
theorem FormattedstringParse_suffix (b : List Nat) (v : Value)
    (rem : List Nat) (h : FormattedString.parse b = .ok (v, rem)) :
    rem <:+ b := by
  cases b with
  | nil => exact absurd h (by simp [FormattedString.parse])
  | cons flag rest =>
    simp only [FormattedString.parse] at h
    by_cases h29 : flag = 0x29
    · rw [if_pos h29] at h
      cases h1 : String.parse rest with
      | error e =>
        simp only [h1, exceptBind_error] at h
        exact absurd h (by simp)
      | ok sr =>
        obtain ⟨s1, r1⟩ := sr
        simp only [h1, exceptBind_ok] at h
        cases h2 : String.parse r1 with
        | error e =>
          simp only [h2, exceptBind_error] at h
          exact absurd h (by simp)
        | ok sr2 =>
          obtain ⟨s2, r2⟩ := sr2
          simp only [h2, exceptBind_ok] at h
          rw [Except.ok.injEq, Prod.mk.injEq] at h
          obtain ⟨_, hr⟩ := h
          subst hr
          exact ((stringParse_suffix _ _ _ h2).trans
            (stringParse_suffix _ _ _ h1)).trans (List.suffix_cons _ _)
    · rw [if_neg h29] at h
      by_cases h2b : flag = 0x2b
      · rw [if_pos h2b] at h
        cases h1 : Integer.parse rest with
        | error e =>
          simp only [h1, exceptBind_error] at h
          exact absurd h (by simp)
        | ok ir =>
          obtain ⟨i, r1⟩ := ir
          simp only [h1, exceptBind_ok] at h
          cases h2 : String.parse r1 with
          | error e =>
            simp only [h2, exceptBind_error] at h
            exact absurd h (by simp)
          | ok sr =>
            obtain ⟨s, r2⟩ := sr
            simp only [h2, exceptBind_ok] at h
            rw [Except.ok.injEq, Prod.mk.injEq] at h
            obtain ⟨_, hr⟩ := h
            subst hr
            exact ((stringParse_suffix _ _ _ h2).trans
              (integerParse_suffix _ _ _ h1)).trans (List.suffix_cons _ _)
      · rw [if_neg h2b] at h
        exact absurd h (by simp)

/-- The string-array element loop returns a suffix of its input. -/
theorem stringArrayLoop_suffix : ∀ (n : Nat) (b : List Nat)
    (l : List String) (rem : List Nat),
    stringArrayLoop n b = .ok (l, rem) → rem <:+ b := by
  intro n
  induction n with
  | zero =>
    intro b l rem h
    rw [stringArrayLoop, Except.ok.injEq, Prod.mk.injEq] at h
    obtain ⟨_, h2⟩ := h
    subst h2
    exact List.suffix_refl _
  | succ n ih =>
    intro b l rem h
    cases b with
    | nil => exact absurd h (by simp [stringArrayLoop])
    | cons b0 rest =>
      simp only [stringArrayLoop] at h
      by_cases hz : b0 = 0
      · rw [if_pos hz, exceptBind_ok] at h
        cases hL : stringArrayLoop n rest with
        | error e =>
          simp only [hL, exceptBind_error] at h
          exact absurd h (by simp)
        | ok lr =>
          obtain ⟨l', r'⟩ := lr
          simp only [hL, exceptBind_ok] at h
          rw [Except.ok.injEq, Prod.mk.injEq] at h
          obtain ⟨_, h2⟩ := h
          subst h2
          exact (ih _ _ _ hL).trans (List.suffix_cons _ _)
      · rw [if_neg hz] at h
        cases hS : String.parse (b0 :: rest) with
        | error e =>
          simp only [hS, exceptBind_error] at h
          exact absurd h (by simp)
        | ok sr =>
          obtain ⟨s, r⟩ := sr
          simp only [hS, exceptBind_ok] at h
          cases hL : stringArrayLoop n r with
          | error e =>
            simp only [hL, exceptBind_error] at h
            exact absurd h (by simp)
          | ok lr =>
            obtain ⟨l', r'⟩ := lr
            simp only [hL, exceptBind_ok] at h
            rw [Except.ok.injEq, Prod.mk.injEq] at h
            obtain ⟨_, h2⟩ := h
            subst h2
            exact (ih _ _ _ hL).trans (stringParse_suffix _ _ _ hS)

/-- `StringArray.parse` returns a suffix of its input. -/
theorem stringArrayParse_suffix (b : List Nat) (v : Value) (rem : List Nat)
    (h : StringArray.parse b = .ok (v, rem)) : rem <:+ b := by
  cases hI : Integer.parse b with
  | error e =>
    simp only [StringArray.parse, hI, exceptBind_error] at h
    exact absurd h (by simp)
  | ok nr =>
    obtain ⟨n, remain⟩ := nr
    simp only [StringArray.parse, hI, exceptBind_ok] at h
    cases hL : stringArrayLoop n remain with
    | error e =>
      simp only [hL, exceptBind_error] at h
      exact absurd h (by simp)
    | ok lr =>
      obtain ⟨l, r⟩ := lr
      simp only [hL, exceptBind_ok] at h
      rw [Except.ok.injEq, Prod.mk.injEq] at h
      obtain ⟨_, h2⟩ := h
      subst h2
      exact (stringArrayLoop_suffix _ _ _ _ hL).trans
        (integerParse_suffix _ _ _ hI)

/-- If the dispatch function only returns suffixes, so does the array
element loop. -/
theorem arrayLoop_suffix (p : List Nat → Except PError (Value × List Nat))
    (hp : ∀ b v r, p b = .ok (v, r) → r <:+ b) :
    ∀ (n : Nat) (b : List Nat) (l : List Value) (rem : List Nat),
      arrayLoop p n b = .ok (l, rem) → rem <:+ b := by
  intro n
  induction n with
  | zero =>
    intro b l rem h
    rw [arrayLoop, Except.ok.injEq, Prod.mk.injEq] at h
    obtain ⟨_, h2⟩ := h
    subst h2
    exact List.suffix_refl _
  | succ n ih =>
    intro b l rem h
    simp only [arrayLoop] at h
    cases hv : p b with
    | error e =>
      simp only [hv, exceptBind_error] at h
      exact absurd h (by simp)
    | ok vr =>
      obtain ⟨val, r⟩ := vr
      simp only [hv, exceptBind_ok] at h
      cases hL : arrayLoop p n r with
      | error e =>
        simp only [hL, exceptBind_error] at h
        exact absurd h (by simp)
      | ok lr =>
        obtain ⟨l', r'⟩ := lr
        simp only [hL, exceptBind_ok] at h
        rw [Except.ok.injEq, Prod.mk.injEq] at h
        obtain ⟨_, h2⟩ := h
        subst h2
        exact (ih _ _ _ hL).trans (hp _ _ _ hv)

/-- If the dispatch function only returns suffixes, so does the dictionary
entry loop. -/
theorem dictLoop_suffix (p : List Nat → Except PError (Value × List Nat))
    (hp : ∀ b v r, p b = .ok (v, r) → r <:+ b) :
    ∀ (n : Nat) (d : List (Value × Value)) (b : List Nat)
      (d' : List (Value × Value)) (rem : List Nat),
      dictLoop p n d b = .ok (d', rem) → rem <:+ b := by
  intro n
  induction n with
  | zero =>
    intro d b d' rem h
    rw [dictLoop, Except.ok.injEq, Prod.mk.injEq] at h
    obtain ⟨_, h2⟩ := h
    subst h2
    exact List.suffix_refl _
  | succ n ih =>
    intro d b d' rem h
    simp only [dictLoop] at h
    cases hk : p b with
    | error e =>
      simp only [hk, exceptBind_error] at h
      exact absurd h (by simp)
    | ok kr =>
      obtain ⟨k, r1⟩ := kr
      simp only [hk, exceptBind_ok] at h
      cases hv : p r1 with
      | error e =>
        simp only [hv, exceptBind_error] at h
        exact absurd h (by simp)
      | ok vr =>
        obtain ⟨v, r2⟩ := vr
        simp only [hv, exceptBind_ok] at h
        by_cases hh : k.hashable
        · rw [if_pos hh] at h
          exact ((ih _ _ _ _ h).trans (hp _ _ _ hv)).trans (hp _ _ _ hk)
        · rw [if_neg hh] at h
          exact absurd h (by simp)

/-- If the dispatch function only returns suffixes, so does the sparse
entry loop. -/
theorem sparseLoop_suffix (p : List Nat → Except PError (Value × List Nat))
    (hp : ∀ b v r, p b = .ok (v, r) → r <:+ b) :
    ∀ (n : Nat) (l : List Value) (b : List Nat) (l' : List Value)
      (rem : List Nat),
      sparseLoop p n l b = .ok (l', rem) → rem <:+ b := by
  intro n
  induction n with
  | zero =>
    intro l b l' rem h
    rw [sparseLoop, Except.ok.injEq, Prod.mk.injEq] at h
    obtain ⟨_, h2⟩ := h
    subst h2
    exact List.suffix_refl _
  | succ n ih =>
    intro l b l' rem h
    simp only [sparseLoop] at h
    cases hI : Integer.parse b with
    | error e =>
      simp only [hI, exceptBind_error] at h
      exact absurd h (by simp)
    | ok ir =>
      obtain ⟨idx, r1⟩ := ir
      simp only [hI, exceptBind_ok] at h
      cases hv : p r1 with
      | error e =>
        simp only [hv, exceptBind_error] at h
        exact absurd h (by simp)
      | ok vr =>
        obtain ⟨val, r2⟩ := vr
        simp only [hv, exceptBind_ok] at h
        by_cases hidx : idx < l.length
        · rw [if_pos hidx] at h
          exact ((ih _ _ _ _ h).trans (hp _ _ _ hv)).trans
            (integerParse_suffix _ _ _ hI)
        · rw [if_neg hidx] at h
          exact absurd h (by simp)

/-- If the dispatch function only returns suffixes, so does `Pair.parse`. -/
theorem pairParse_suffix (p : List Nat → Except PError (Value × List Nat))
    (hp : ∀ b v r, p b = .ok (v, r) → r <:+ b) (b : List Nat) (v : Value)
    (rem : List Nat) (h : Pair.parse p b = .ok (v, rem)) : rem <:+ b := by
  cases h1 : p b with
  | error e =>
    simp only [Pair.parse, h1, exceptBind_error] at h
    exact absurd h (by simp)
  | ok r1 =>
    obtain ⟨v1, rest1⟩ := r1
    simp only [Pair.parse, h1, exceptBind_ok] at h
    cases h2 : p rest1 with
    | error e =>
      simp only [h2, exceptBind_error] at h
      exact absurd h (by simp)
    | ok r2 =>
      obtain ⟨v2, rest2⟩ := r2
      simp only [h2, exceptBind_ok] at h
      rw [Except.ok.injEq, Prod.mk.injEq] at h
      obtain ⟨_, hr⟩ := h
      subst hr
      exact (hp _ _ _ h2).trans (hp _ _ _ h1)

/-- If the dispatch function only returns suffixes, so does
`Triplet.parse`. -/
theorem tripletParse_suffix (p : List Nat → Except PError (Value × List Nat))
    (hp : ∀ b v r, p b = .ok (v, r) → r <:+ b) (b : List Nat) (v : Value)
    (rem : List Nat) (h : Triplet.parse p b = .ok (v, rem)) : rem <:+ b := by
  cases h1 : p b with
  | error e =>
    simp only [Triplet.parse, h1, exceptBind_error] at h
    exact absurd h (by simp)
  | ok r1 =>
    obtain ⟨v1, rest1⟩ := r1
    simp only [Triplet.parse, h1, exceptBind_ok] at h
    cases h2 : p rest1 with
    | error e =>
      simp only [h2, exceptBind_error] at h
      exact absurd h (by simp)
    | ok r2 =>
      obtain ⟨v2, rest2⟩ := r2
      simp only [h2, exceptBind_ok] at h
      cases h3 : p rest2 with
      | error e =>
        simp only [h3, exceptBind_error] at h
        exact absurd h (by simp)
      | ok r3 =>
        obtain ⟨v3, rest3⟩ := r3
        simp only [h3, exceptBind_ok] at h
        rw [Except.ok.injEq, Prod.mk.injEq] at h
        obtain ⟨_, hr⟩ := h
        subst hr
        exact ((hp _ _ _ h3).trans (hp _ _ _ h2)).trans (hp _ _ _ h1)

/-- If the dispatch function only returns suffixes, so does `Array.parse`. -/
theorem arrayParse_suffix (p : List Nat → Except PError (Value × List Nat))
    (hp : ∀ b v r, p b = .ok (v, r) → r <:+ b) (b : List Nat) (v : Value)
    (rem : List Nat) (h : Array.parse p b = .ok (v, rem)) : rem <:+ b := by
  cases hI : Integer.parse b with
  | error e =>
    simp only [Array.parse, hI, exceptBind_error] at h
    exact absurd h (by simp)
  | ok nr =>
    obtain ⟨n, remain⟩ := nr
    simp only [Array.parse, hI, exceptBind_ok] at h
    cases hL : arrayLoop p n remain with
    | error e =>
      simp only [hL, exceptBind_error] at h
      exact absurd h (by simp)
    | ok lr =>
      obtain ⟨l, r⟩ := lr
      simp only [hL, exceptBind_ok] at h
      rw [Except.ok.injEq, Prod.mk.injEq] at h
      obtain ⟨_, h2⟩ := h
      subst h2
      exact (arrayLoop_suffix p hp _ _ _ _ hL).trans
        (integerParse_suffix _ _ _ hI)

/-- If the dispatch function only returns suffixes, so does `Dict.parse`. -/
theorem dictParse_suffix (p : List Nat → Except PError (Value × List Nat))
    (hp : ∀ b v r, p b = .ok (v, r) → r <:+ b) (b : List Nat) (v : Value)
    (rem : List Nat) (h : Dict.parse p b = .ok (v, rem)) : rem <:+ b := by
  cases b with
  | nil => exact absurd h (by simp [Dict.parse])
  | cons n remain =>
    simp only [Dict.parse] at h
    cases hL : dictLoop p n [] remain with
    | error e =>
      rw [hL, exceptMap_error] at h
      exact absurd h (by simp)
    | ok dr =>
      rw [hL, exceptMap_ok, Except.ok.injEq, Prod.mk.injEq] at h
      obtain ⟨_, h2⟩ := h
      subst h2
      exact (dictLoop_suffix p hp _ _ _ _ _ hL).trans (List.suffix_cons _ _)

/-- If the dispatch function only returns suffixes, so does
`SparseArray.parse`. -/
theorem SparsearrayParse_suffix
    (p : List Nat → Except PError (Value × List Nat))
    (hp : ∀ b v r, p b = .ok (v, r) → r <:+ b) (b : List Nat) (v : Value)
    (rem : List Nat) (h : SparseArray.parse p b = .ok (v, rem)) :
    rem <:+ b := by
  cases hT : VType.parse b with
  | error e =>
    simp only [SparseArray.parse, hT, exceptBind_error] at h
    exact absurd h (by simp)
  | ok tr =>
    obtain ⟨t, r0⟩ := tr
    simp only [SparseArray.parse, hT, exceptBind_ok] at h
    cases hL : Integer.parse r0 with
    | error e =>
      simp only [hL, exceptBind_error] at h
      exact absurd h (by simp)
    | ok lr =>
      obtain ⟨length, r1⟩ := lr
      simp only [hL, exceptBind_ok] at h
      cases hN : Integer.parse r1 with
      | error e =>
        simp only [hN, exceptBind_error] at h
        exact absurd h (by simp)
      | ok nr =>
        obtain ⟨n, r2⟩ := nr
        simp only [hN, exceptBind_ok] at h
        cases hS : sparseLoop p n (List.replicate length Value.none) r2 with
        | error e =>
          simp only [hS, exceptBind_error] at h
          exact absurd h (by simp)
        | ok sr =>
          obtain ⟨l, r3⟩ := sr
          simp only [hS, exceptBind_ok] at h
          rw [Except.ok.injEq, Prod.mk.injEq] at h
          obtain ⟨_, h2⟩ := h
          subst h2
          exact (((sparseLoop_suffix p hp _ _ _ _ _ hS).trans
            (integerParse_suffix _ _ _ hN)).trans
            (integerParse_suffix _ _ _ hL)).trans
            (vtypeParse_suffix _ _ _ hT)

/-- If the dispatch function only returns suffixes, so does
`TypedArray.parse`. -/
theorem TypedarrayParse_suffix
    (p : List Nat → Except PError (Value × List Nat))
    (hp : ∀ b v r, p b = .ok (v, r) → r <:+ b) (b : List Nat) (v : Value)
    (rem : List Nat) (h : TypedArray.parse p b = .ok (v, rem)) :
    rem <:+ b := by
  cases hT : VType.parse b with
  | error e =>
    simp only [TypedArray.parse, hT, exceptBind_error] at h
    exact absurd h (by simp)
  | ok tr =>
    obtain ⟨t, r0⟩ := tr
    simp only [TypedArray.parse, hT, exceptBind_ok] at h
    cases hN : Integer.parse r0 with
    | error e =>
      simp only [hN, exceptBind_error] at h
      exact absurd h (by simp)
    | ok nr =>
      obtain ⟨n, r1⟩ := nr
      simp only [hN, exceptBind_ok] at h
      cases hL : arrayLoop p n r1 with
      | error e =>
        simp only [hL, exceptBind_error] at h
        exact absurd h (by simp)
      | ok lr =>
        obtain ⟨l, r⟩ := lr
        simp only [hL, exceptBind_ok] at h
        rw [Except.ok.injEq, Prod.mk.injEq] at h
        obtain ⟨_, h2⟩ := h
        subst h2
        exact ((arrayLoop_suffix p hp _ _ _ _ hL).trans
          (integerParse_suffix _ _ _ hN)).trans (vtypeParse_suffix _ _ _ hT)

/-- Inverting a successful `Except.ok` carrying a pair: the byte components
agree. -/
theorem ok_pair_right {x v : Value} {r rem : List Nat}
    (h : (Except.ok (x, r) : Except PError (Value × List Nat)) = .ok (v, rem)) :
    rem = r := by
  rw [Except.ok.injEq, Prod.mk.injEq] at h
  exact h.2.symm

/-- Inverting `Except.map` over the value component of a successful
decode: the underlying decode succeeded with the same remaining bytes. -/
theorem map_ok_inv {α : Type} {p : Except PError (α × List Nat)}
    {f : α → Value} {v : Value} {rem : List Nat}
    (h : Except.map (fun r => (f r.1, r.2)) p = .ok (v, rem)) :
    ∃ x, p = .ok (x, rem) := by
  cases p with
  | error e =>
    rw [exceptMap_error] at h
    exact absurd h (by simp)
  | ok pr =>
    rw [exceptMap_ok, Except.ok.injEq, Prod.mk.injEq] at h
    exact ⟨pr.1, by rw [← h.2]⟩

/-- Master lemma: every successful dispatch (at any fuel) returns a suffix
of its input buffer; the composite arms reuse the induction hypothesis for
their nested element decodes. -/
theorem parserParse_suffix : ∀ (fuel : Nat) (b : List Nat) (v : Value)
    (rem : List Nat), Parser.parse fuel b = .ok (v, rem) → rem <:+ b := by
  intro fuel
  induction fuel with
  | zero =>
    intro b v rem h
    exact absurd h (by simp [Parser.parse])
  | succ fuel ih =>
    intro b v rem h
    cases b with
    | nil => exact absurd h (by simp [Parser.parse])
    | cons marker remain =>
      have hsub : ∀ {r : List Nat}, r <:+ remain → r <:+ marker :: remain :=
        fun hh => hh.trans (List.suffix_cons _ _)
      simp only [Parser.parse] at h
      by_cases h64 : marker = 0x64
      · rw [if_pos h64] at h
        have hr := ok_pair_right h
        subst hr
        exact List.suffix_cons _ _
      rw [if_neg h64] at h
      by_cases h65 : marker = 0x65
      · rw [if_pos h65] at h
        have hr := ok_pair_right h
        subst hr
        exact List.suffix_cons _ _
      rw [if_neg h65] at h
      by_cases h66 : marker = 0x66
      · rw [if_pos h66] at h
        have hr := ok_pair_right h
        subst hr
        exact List.suffix_cons _ _
      rw [if_neg h66] at h
      by_cases h67 : marker = 0x67
      · rw [if_pos h67] at h
        have hr := ok_pair_right h
        subst hr
        exact List.suffix_cons _ _
      rw [if_neg h67] at h
      by_cases h68 : marker = 0x68
      · rw [if_pos h68] at h
        have hr := ok_pair_right h
        subst hr
        exact List.suffix_cons _ _
      rw [if_neg h68] at h
      by_cases h02 : marker = 0x02
      · rw [if_pos h02] at h
        obtain ⟨x, hI⟩ := map_ok_inv h
        exact hsub (integerParse_suffix _ _ _ hI)
      rw [if_neg h02] at h
      by_cases h05 : marker = 0x05 ∨ marker = 0x1e
      · rw [if_pos h05] at h
        obtain ⟨x, hS⟩ := map_ok_inv h
        exact hsub (stringParse_suffix _ _ _ hS)
      rw [if_neg h05] at h
      by_cases h0b : marker = 0x0b
      · rw [if_pos h0b] at h
        exact hsub (enumParse_suffix _ _ _ h)
      rw [if_neg h0b] at h
      by_cases h0a : marker = 0x0a
      · rw [if_pos h0a] at h
        exact hsub (colorParse_suffix _ _ _ h)
      rw [if_neg h0a] at h
      by_cases h0f : marker = 0x0f
      · rw [if_pos h0f] at h
        exact hsub (pairParse_suffix _ ih _ _ _ h)
      rw [if_neg h0f] at h
      by_cases h10 : marker = 0x10
      · rw [if_pos h10] at h
        exact hsub (tripletParse_suffix _ ih _ _ _ h)
      rw [if_neg h10] at h
      by_cases h06 : marker = 0x06
      · rw [if_pos h06] at h
        exact hsub (datetimeParse_suffix _ _ _ h)
      rw [if_neg h06] at h
      by_cases h1b : marker = 0x1b
      · rw [if_pos h1b] at h
        exact hsub (unitParse_suffix _ _ _ h)
      rw [if_neg h1b] at h
      by_cases h09 : marker = 0x09
      · rw [if_pos h09] at h
        exact hsub (rgbaParse_suffix _ _ _ h)
      rw [if_neg h09] at h
      by_cases h15 : marker = 0x15
      · rw [if_pos h15] at h
        exact hsub (stringArrayParse_suffix _ _ _ h)
      rw [if_neg h15] at h
      by_cases h16 : marker = 0x16
      · rw [if_pos h16] at h
        exact hsub (arrayParse_suffix _ ih _ _ _ h)
      rw [if_neg h16] at h
      by_cases h1f : marker = 0x1f
      · rw [if_pos h1f] at h
        exact hsub (stringRefParse_suffix _ _ _ h)
      rw [if_neg h1f] at h
      by_cases h28 : marker = 0x28
      · rw [if_pos h28] at h
        exact hsub (FormattedstringParse_suffix _ _ _ h)
      rw [if_neg h28] at h
      by_cases h3c : marker = 0x3c
      · rw [if_pos h3c] at h
        exact hsub (SparsearrayParse_suffix _ ih _ _ _ h)
      rw [if_neg h3c] at h
      by_cases h18 : marker = 0x18
      · rw [if_pos h18] at h
        exact hsub (dictParse_suffix _ ih _ _ _ h)
      rw [if_neg h18] at h
      by_cases h14 : marker = 0x14
      · rw [if_pos h14] at h
        exact hsub (TypedarrayParse_suffix _ ih _ _ _ h)
      rw [if_neg h14] at h
      exact absurd h (by simp)

/-- Claim C8: for every input on which the dispatch core succeeds (at any
fuel), the returned remaining bytes are a suffix of the input — the decoder
consumed a prefix.  The induction behind `parserParse_suffix` establishes this
for every decoder reachable from the dispatch core, including all nested
element decodes. -/
theorem claim8_suffix_invariant (fuel : Nat) (b : List Nat) (v : Value)
    (rem : List Nat) (h : Parser.parse fuel b = .ok (v, rem)) : rem <:+ b :=
  parserParse_suffix fuel b v rem h

/-- Claim C8, witness: decoding the array `[0x16, 0x01, 0x64]` leaves `[]`,
a suffix of the input. -/
theorem claim8_witness : ([] : List Nat) <:+ [0x16, 0x01, 0x64] :=
  claim8_suffix_invariant 2 [0x16, 0x01, 0x64] (.list [.none]) [] rfl

/-- Claim C5, witness at fuel 0 and no trailing bytes. -/
theorem claim5_witness :
    Parser.parse (0 + 1) (0x18 :: 0x00 :: ([] : List Nat)) = .ok (.dict [], []) ∧
    Parser.parse (0 + 2) [0x18, 0x80, 0x00] =
      .error (.viewState "Unknown marker 0") :=
  claim5_dict_count 0 []
